import Mathlib

/-!
# Verification of the `to_vec` collection utilities

Shallow embedding of `src/lib.rs` of the `to_vec` crate.  The crate offers
four extension methods on iterators, each a one-line delegation to
`FromIterator::from_iter`:

* `to_vec`        : `Iterator<Item = T>            → Vec<T>`
* `to_vec_result` : `Iterator<Item = Result<T,E>>  → Result<Vec<T>, E>`
* `to_map`        : `Iterator<Item = &(K,V)>       → HashMap<K,V>` (cloning)
* `to_set`        : `Iterator<Item = &K>           → HashSet<K>` (cloning)

Modelling choices:

* A finite iterator is a `List` of the items it produces, in production
  order.  Cloning a value is the identity on values, so the reference /
  clone distinction of `to_map` and `to_set` is erased: both consume a
  plain list of values.
* `Vec<T>::from_iter` pushes each produced item onto the back of a fresh
  vector; it is embedded as a left fold with push (`vec_from_iter`).
* `Result<Vec<T>,E>::from_iter` scans the items in order, pushing success
  payloads, and returns the first failure payload as soon as it is
  produced; it is embedded as `result_from_iter_aux` / `to_vec_result`,
  with `Result<T,E>` embedded as `Except E T`.
* `HashMap<K,V>` is observable only through `get` (its iteration order is
  unspecified); it is embedded as a key-unique association list
  (`List (K × V)`) together with the lookup `map_get`.  `HashMap::insert`
  replaces the stored value when the key is already present and adds a
  fresh entry otherwise (`map_insert`); `HashMap<K,V>::from_iter` inserts
  every produced pair in order (`to_map`).  The `Eq + Hash` bound on `K`
  is embedded as `DecidableEq K`.
* `HashSet<K>` is unordered and duplicate-free with extensional equality,
  exactly a `Finset K`; `HashSet::insert` is `Finset` insertion (a no-op
  on duplicates) and `HashSet<K>::from_iter` inserts every produced item
  in order (`to_set`).
-/

/-- `Vec<T>::from_iter`: start from the empty vector and push every item
produced by the iterator onto the back. -/
def vec_from_iter {T : Type} (iter : List T) : List T :=
  iter.foldl (fun acc x => acc ++ [x]) []

/-- `ToVec::to_vec` from `src/lib.rs`: `FromIterator::from_iter(self)`
at type `Vec<T>`. -/
def to_vec {T : Type} (iter : List T) : List T :=
  vec_from_iter iter

/-- `Result<Vec<T>,E>::from_iter`, scanning the items in production order
with the vector built so far in `acc`: a success payload is pushed, the
first failure payload is returned at once and the remaining items are
dropped unread. -/
def result_from_iter_aux {T E : Type} (acc : List T) :
    List (Except E T) → Except E (List T)
  | [] => Except.ok acc
  | Except.ok a :: rest => result_from_iter_aux (acc ++ [a]) rest
  | Except.error e :: _ => Except.error e

/-- `ToVecResult::to_vec_result` from `src/lib.rs`:
`FromIterator::from_iter(self)` at type `Result<Vec<T>,E>`. -/
def to_vec_result {T E : Type} (iter : List (Except E T)) :
    Except E (List T) :=
  result_from_iter_aux [] iter

/-- `HashMap::get`: the value stored for key `k`, if any.  The embedded
map is a key-unique association list, so the first entry with key `k` is
the entry for `k`. -/
def map_get {K V : Type} [DecidableEq K] (m : List (K × V)) (k : K) :
    Option V :=
  match m with
  | [] => none
  | p :: rest => if p.1 = k then some p.2 else map_get rest k

/-- Keys of the embedded map, in entry order. -/
def map_keys {K V : Type} (m : List (K × V)) : List K :=
  m.map Prod.fst

/-- `HashMap::insert`: when the key is already present its stored value is
replaced, otherwise a fresh entry is added. -/
def map_insert {K V : Type} [DecidableEq K] (m : List (K × V)) (k : K)
    (v : V) : List (K × V) :=
  if k ∈ map_keys m then
    m.map (fun p => if p.1 = k then (k, v) else p)
  else
    m ++ [(k, v)]

/-- `ToMap::to_map` from `src/lib.rs`:
`FromIterator::from_iter(self.cloned())` at type `HashMap<K,V>` — insert
every produced (cloned) pair, in production order, into an initially
empty map. -/
def to_map {K V : Type} [DecidableEq K] (iter : List (K × V)) :
    List (K × V) :=
  iter.foldl (fun m kv => map_insert m kv.1 kv.2) []

/-- `ToSet::to_set` from `src/lib.rs`:
`FromIterator::from_iter(self.cloned())` at type `HashSet<K>` — insert
every produced (cloned) item, in production order, into an initially
empty set. -/
def to_set {K : Type} [DecidableEq K] (iter : List K) : Finset K :=
  iter.foldl (fun s x => insert x s) ∅

/-! ## Helper lemmas -/

theorem vec_from_iter_push {T : Type} (acc : List T) (l : List T) :
    l.foldl (fun a x => a ++ [x]) acc = acc ++ l := by
  induction l generalizing acc with
  | nil => simp
  | cons x xs ih => simp [List.foldl_cons, ih]

theorem to_vec_eq {T : Type} (l : List T) : to_vec l = l := by
  simpa using vec_from_iter_push ([] : List T) l

theorem to_set_eq_toFinset {K : Type} [DecidableEq K] (l : List K) :
    to_set l = l.toFinset := by
  have h : ∀ (l : List K) (s : Finset K),
      l.foldl (fun s x => insert x s) s = s ∪ l.toFinset := by
    intro l
    induction l with
    | nil => intro s; simp
    | cons x xs ih =>
        intro s
        simp only [List.foldl_cons, ih, List.toFinset_cons]
        rw [Finset.union_insert, Finset.insert_union]
  simpa using h l ∅

theorem map_keys_map_insert {K V : Type} [DecidableEq K]
    (m : List (K × V)) (k : K) (v : V) :
    map_keys (map_insert m k v) =
      if k ∈ map_keys m then map_keys m else map_keys m ++ [k] := by
  by_cases h : k ∈ map_keys m
  · rw [map_insert, if_pos h, if_pos h]
    simp only [map_keys, List.map_map]
    congr 1
    funext p
    by_cases hp : p.1 = k
    · simp [hp]
    · simp [hp]
  · rw [map_insert, if_neg h, if_neg h]
    simp [map_keys]

theorem map_get_map_replace_ne {K V : Type} [DecidableEq K]
    (m : List (K × V)) (k : K) (v : V) (k' : K) (hne : k' ≠ k) :
    map_get (m.map (fun p => if p.1 = k then (k, v) else p)) k' =
      map_get m k' := by
  induction m with
  | nil => rfl
  | cons p rest ih =>
      by_cases hp : p.1 = k
      · have hpk : ¬ (k = k') := fun h => hne h.symm
        have hpk' : ¬ (p.1 = k') := by
          rw [hp]; exact hpk
        simp [map_get, hp, hpk, hpk', ih]
      · simp only [List.map_cons, if_neg hp, map_get]
        by_cases hq : p.1 = k'
        · simp [hq]
        · simp [hq, ih]

theorem map_get_map_replace_eq {K V : Type} [DecidableEq K]
    (m : List (K × V)) (k : K) (v : V) (hmem : k ∈ map_keys m) :
    map_get (m.map (fun p => if p.1 = k then (k, v) else p)) k = some v := by
  induction m with
  | nil => simp [map_keys] at hmem
  | cons p rest ih =>
      by_cases hp : p.1 = k
      · simp [map_get, hp]
      · have hmem' : k ∈ map_keys rest := by
          simp only [map_keys, List.map_cons, List.mem_cons] at hmem
          rcases hmem with h | h
          · exact absurd h.symm hp
          · exact h
        simp [map_get, hp, ih hmem']

theorem map_get_none_of_not_mem {K V : Type} [DecidableEq K]
    (m : List (K × V)) (k : K) (h : k ∉ map_keys m) : map_get m k = none := by
  induction m with
  | nil => rfl
  | cons p rest ih =>
      have h1 : ¬ (p.1 = k) := by
        intro he
        exact h (by simp [map_keys, he])
      have h2 : k ∉ map_keys rest := by
        intro hm
        exact h (by simp [map_keys] at hm ⊢; exact Or.inr hm)
      simp [map_get, h1, ih h2]

theorem map_get_append_some {K V : Type} [DecidableEq K]
    (m l : List (K × V)) (k : K) (v : V) (h : map_get m k = some v) :
    map_get (m ++ l) k = some v := by
  induction m with
  | nil => simp [map_get] at h
  | cons p rest ih =>
      by_cases hp : p.1 = k
      · simp [map_get, hp] at h ⊢; exact h
      · simp [map_get, hp] at h ⊢; exact ih h

theorem map_get_append_none {K V : Type} [DecidableEq K]
    (m l : List (K × V)) (k : K) (h : map_get m k = none) :
    map_get (m ++ l) k = map_get l k := by
  induction m with
  | nil => rfl
  | cons p rest ih =>
      by_cases hp : p.1 = k
      · simp [map_get, hp] at h
      · simp [map_get, hp] at h ⊢; exact ih h

theorem map_get_map_insert {K V : Type} [DecidableEq K]
    (m : List (K × V)) (k : K) (v : V) (k' : K) :
    map_get (map_insert m k v) k' =
      if k = k' then some v else map_get m k' := by
  by_cases hmem : k ∈ map_keys m
  · by_cases he : k = k'
    · subst he
      simp only [if_pos rfl, map_insert, if_pos hmem]
      exact map_get_map_replace_eq m k v hmem
    · have hne : k' ≠ k := fun h => he h.symm
      simp only [if_neg he, map_insert, if_pos hmem]
      exact map_get_map_replace_ne m k v k' hne
  · have hnone : map_get m k = none := map_get_none_of_not_mem m k hmem
    simp only [map_insert, if_neg hmem]
    by_cases he : k = k'
    · subst he
      rw [map_get_append_none m _ k hnone]
      simp [map_get]
    · simp only [if_neg he]
      cases hc : map_get m k' with
      | some w => exact map_get_append_some m _ k' w hc
      | none =>
          rw [map_get_append_none m _ k' hc]
          simp [map_get, fun h => he (h : k = k')]

theorem to_map_snoc {K V : Type} [DecidableEq K]
    (l : List (K × V)) (kv : K × V) :
    to_map (l ++ [kv]) = map_insert (to_map l) kv.1 kv.2 := by
  simp [to_map, List.foldl_append]

theorem map_get_to_map {K V : Type} [DecidableEq K]
    (l : List (K × V)) (k : K) :
    map_get (to_map l) k = map_get l.reverse k := by
  induction l using List.reverseRecOn with
  | nil => rfl
  | append_singleton l kv ih =>
      rw [to_map_snoc, map_get_map_insert, List.reverse_append]
      by_cases he : kv.1 = k
      · simp [map_get, he]
      · simp [map_get, he, ih]

theorem map_insert_keys_nodup {K V : Type} [DecidableEq K]
    (m : List (K × V)) (k : K) (v : V) (h : (map_keys m).Nodup) :
    (map_keys (map_insert m k v)).Nodup := by
  rw [map_keys_map_insert]
  by_cases hmem : k ∈ map_keys m
  · simpa [hmem] using h
  · simp only [if_neg hmem]
    rw [List.nodup_append]
    exact ⟨h, List.nodup_singleton k, by simpa using hmem⟩

theorem to_map_keys_nodup_aux {K V : Type} [DecidableEq K]
    (l : List (K × V)) (m : List (K × V)) (h : (map_keys m).Nodup) :
    (map_keys (l.foldl (fun m kv => map_insert m kv.1 kv.2) m)).Nodup := by
  induction l generalizing m with
  | nil => simpa using h
  | cons kv rest ih =>
      exact ih (map_insert m kv.1 kv.2) (map_insert_keys_nodup m kv.1 kv.2 h)

theorem mem_map_keys_map_insert {K V : Type} [DecidableEq K]
    (m : List (K × V)) (k : K) (v : V) (k' : K) :
    k' ∈ map_keys (map_insert m k v) ↔ k' ∈ map_keys m ∨ k' = k := by
  rw [map_keys_map_insert]
  by_cases hmem : k ∈ map_keys m
  · simp only [if_pos hmem]
    constructor
    · exact Or.inl
    · rintro (h | h)
      · exact h
      · exact h ▸ hmem
  · simp [if_neg hmem]

theorem mem_map_keys_to_map_aux {K V : Type} [DecidableEq K]
    (l : List (K × V)) (m : List (K × V)) (k : K) :
    k ∈ map_keys (l.foldl (fun m kv => map_insert m kv.1 kv.2) m) ↔
      k ∈ map_keys m ∨ k ∈ map_keys l := by
  induction l generalizing m with
  | nil => simp [map_keys]
  | cons kv rest ih =>
      rw [List.foldl_cons, ih, mem_map_keys_map_insert]
      simp [map_keys, or_assoc]

theorem result_from_iter_aux_map_ok {T E : Type} (l : List T)
    (acc : List T) :
    result_from_iter_aux (E := E) acc (l.map Except.ok) =
      Except.ok (acc ++ l) := by
  induction l generalizing acc with
  | nil => simp [result_from_iter_aux]
  | cons x xs ih => simp [result_from_iter_aux, ih]

theorem result_from_iter_aux_ok_iff {T E : Type} (l : List (Except E T))
    (acc : List T) :
    (∃ v, result_from_iter_aux acc l = Except.ok v) ↔
      ∀ x ∈ l, ∃ a, x = Except.ok a := by
  induction l generalizing acc with
  | nil => simp [result_from_iter_aux]
  | cons x xs ih =>
      cases x with
      | ok a => simp [result_from_iter_aux, ih]
      | error e => simp [result_from_iter_aux]

theorem result_from_iter_aux_first_error {T E : Type}
    (pre : List (Except E T)) (e : E) (suf : List (Except E T))
    (hpre : ∀ x ∈ pre, ∃ a, x = Except.ok a) (acc : List T) :
    result_from_iter_aux acc (pre ++ Except.error e :: suf) =
      Except.error e := by
  induction pre generalizing acc with
  | nil => simp [result_from_iter_aux]
  | cons x xs ih =>
      obtain ⟨a, ha⟩ := hpre x (List.mem_cons_self x xs)
      subst ha
      exact ih (fun y hy => hpre y (List.mem_cons_of_mem _ hy)) (acc ++ [a])

theorem map_get_isSome_of_mem {K V : Type} [DecidableEq K]
    (m : List (K × V)) (k : K) (h : k ∈ map_keys m) :
    (map_get m k).isSome = true := by
  induction m with
  | nil => simp [map_keys] at h
  | cons p rest ih =>
      by_cases hp : p.1 = k
      · simp [map_get, hp]
      · have h2 : k ∈ map_keys rest := by
          simp only [map_keys, List.map_cons, List.mem_cons] at h
          rcases h with h | h
          · exact absurd h.symm hp
          · exact h
        simp [map_get, hp, ih h2]

/-! ## Claim theorems -/

/-- Claim C1: for every finite sequence `l` of items of type `T`,
`to_vec l` has the same length as `l` and its `i`-th element equals the
`i`-th item produced by `l`, duplicates included. -/
theorem to_vec_order_preservation {T : Type} (l : List T) :
    (to_vec l).length = l.length ∧ ∀ i : Nat, (to_vec l)[i]? = l[i]? := by
  simp [to_vec_eq]

/-- Claim C2: on a sequence in which every item is a success, namely any
`payloads.map Except.ok`, `to_vec_result` returns a success holding the
unwrapped payloads in production order; on the empty sequence it returns
a success holding the empty container; and it returns a success if and
only if every item was a success. -/
theorem to_vec_result_all_success {T E : Type} :
    (∀ payloads : List T,
        to_vec_result (payloads.map Except.ok : List (Except E T)) =
          Except.ok payloads) ∧
      to_vec_result ([] : List (Except E T)) = Except.ok [] ∧
      ∀ l : List (Except E T),
        (∃ v, to_vec_result l = Except.ok v) ↔
          ∀ x ∈ l, ∃ a, x = Except.ok a := by
  refine ⟨?_, rfl, ?_⟩
  · intro payloads
    have h := result_from_iter_aux_map_ok (E := E) payloads []
    simpa [to_vec_result] using h
  · intro l
    exact result_from_iter_aux_ok_iff l []

/-- Witness for C2 at a concrete input. -/
theorem to_vec_result_all_success_witness :
    to_vec_result ([Except.ok 1, Except.ok 2] : List (Except String Nat)) =
      Except.ok [1, 2] := by
  have h := (to_vec_result_all_success (T := Nat) (E := String)).1 [1, 2]
  simpa using h

/-- Claim C3: on a sequence whose earliest failure carries payload `e`
(every item before it is a success), `to_vec_result` returns exactly
`Except.error e`: the first failure payload, passed through unchanged and
not replaced by any later failure. -/
theorem to_vec_result_first_failure {T E : Type}
    (pre : List (Except E T)) (e : E) (suf : List (Except E T))
    (hpre : ∀ x ∈ pre, ∃ a, x = Except.ok a) :
    to_vec_result (pre ++ Except.error e :: suf) = Except.error e := by
  have h := result_from_iter_aux_first_error pre e suf hpre []
  simpa [to_vec_result] using h

/-- Witness for C3 at a concrete input. -/
theorem to_vec_result_first_failure_witness :
    to_vec_result
        ([Except.ok 1, Except.error "boom", Except.error "later"] :
          List (Except String Nat)) =
      Except.error "boom" := by
  have h := to_vec_result_first_failure [Except.ok 1] "boom"
    [Except.error "later"]
    (by
      intro x hx
      rw [List.mem_singleton] at hx
      exact ⟨1, hx⟩)
  simpa using h

/-- Claim C4: `to_vec_result` short-circuits — its result depends only on
the items up to and including the first failure.  Two sequences that share
the same prefix `pre` of successes followed by the same first failure `e`
yield the same result, whatever comes after, and that result is the
failure itself.  (The side-effect half of the claim — that later items of
a lazy iterator are never consumed — is the operational reading of the
same fact: `result_from_iter_aux` returns on the first failure without
recursing into the tail.) -/
theorem to_vec_result_short_circuit {T E : Type}
    (pre : List (Except E T)) (e : E)
    (suf1 suf2 : List (Except E T))
    (hpre : ∀ x ∈ pre, ∃ a, x = Except.ok a) :
    to_vec_result (pre ++ Except.error e :: suf1) =
        to_vec_result (pre ++ Except.error e :: suf2) ∧
      to_vec_result (pre ++ Except.error e :: suf1) = Except.error e := by
  have h1 := result_from_iter_aux_first_error pre e suf1 hpre []
  have h2 := result_from_iter_aux_first_error pre e suf2 hpre []
  constructor
  · simp only [to_vec_result]
    rw [h1, h2]
  · simpa [to_vec_result] using h1

/-- Witness for C4 at a concrete input. -/
theorem to_vec_result_short_circuit_witness :
    to_vec_result
          ([Except.ok 7, Except.error "first", Except.ok 8] :
            List (Except String Nat)) =
        to_vec_result
          ([Except.ok 7, Except.error "first", Except.error "second"] :
            List (Except String Nat)) ∧
      to_vec_result
          ([Except.ok 7, Except.error "first", Except.ok 8] :
            List (Except String Nat)) =
        Except.error "first" := by
  have h := to_vec_result_short_circuit [Except.ok 7] "first"
    [Except.ok 8] [Except.error "second"]
    (by
      intro x hx
      rw [List.mem_singleton] at hx
      exact ⟨7, hx⟩)
  simpa using h

/-- Claim C5: `to_map` produces a map with exactly one entry per distinct
key of the input (its key list is duplicate-free and holds exactly the
input's keys), and looking a key up yields the value of that key's last
occurrence in production order — `map_get l.reverse k` is precisely the
value paired with the last occurrence of `k` in `l` — with no error on
duplicate keys (`to_map` is total). -/
theorem to_map_last_write_wins {K V : Type} [DecidableEq K]
    (l : List (K × V)) :
    (map_keys (to_map l)).Nodup ∧
      (∀ k, k ∈ map_keys (to_map l) ↔ k ∈ map_keys l) ∧
      ∀ k, map_get (to_map l) k = map_get l.reverse k := by
  refine ⟨?_, ?_, map_get_to_map l⟩
  · have h := to_map_keys_nodup_aux l [] (by simp [map_keys])
    simpa [to_map] using h
  · intro k
    have h := mem_map_keys_to_map_aux l [] k
    simp only [map_keys, List.map_nil, List.not_mem_nil, false_or] at h
    simpa [to_map, map_keys] using h

/-- Claim C6: `to_set` returns a set containing exactly the distinct
values among the input items: an item is in the result if and only if it
equals some input item, and the result's items are duplicate-free. -/
theorem to_set_distinct_values {K : Type} [DecidableEq K] (l : List K) :
    (∀ x, x ∈ to_set l ↔ x ∈ l) ∧ (to_set l).toList.Nodup := by
  constructor
  · intro x
    rw [to_set_eq_toFinset]
    exact List.mem_toFinset
  · exact Finset.nodup_toList _

/-- Claim C7: `to_set` is idempotent — collecting the items of the set
produced by `to_set l` yields that same set. -/
theorem to_set_idempotent {K : Type} [DecidableEq K] (l : List K) :
    to_set ((to_set l).toList) = to_set l := by
  rw [to_set_eq_toFinset, Finset.toList_toFinset]

/-- Claim C8: `to_vec`, `to_map` and `to_set` are total functions of the
input sequence (they are plain Lean functions, defined on every finite
list, returning a container and never an error), and no input item is
left unhandled: `to_vec` keeps every position, every input key is present
in `to_map`'s result, and every input item is in `to_set`'s result. -/
theorem collectors_total {T K V : Type} [DecidableEq K]
    (lv : List T) (lm : List (K × V)) (ls : List K) :
    (to_vec lv).length = lv.length ∧
      (∀ kv ∈ lm, (map_get (to_map lm) kv.1).isSome = true) ∧
      ∀ x ∈ ls, x ∈ to_set ls := by
  refine ⟨by simp [to_vec_eq], ?_, ?_⟩
  · intro kv hkv
    apply map_get_isSome_of_mem
    have hmem : kv.1 ∈ map_keys lm := List.mem_map_of_mem Prod.fst hkv
    have h := mem_map_keys_to_map_aux lm [] kv.1
    simp only [map_keys, List.map_nil, List.not_mem_nil, false_or] at h
    have h2 : kv.1 ∈ map_keys (lm.foldl (fun m kv => map_insert m kv.1 kv.2) []) :=
      h.mpr hmem
    simpa [to_map] using h2
  · intro x hx
    rw [to_set_eq_toFinset]
    exact List.mem_toFinset.mpr hx

/-- Witness for C8 at concrete inputs. -/
theorem collectors_total_witness :
    (to_vec [10, 20]).length = 2 ∧
      (map_get (to_map [((1 : Nat), (5 : Nat))]) 1).isSome = true ∧
      (3 : Nat) ∈ to_set [(3 : Nat)] := by
  have h := collectors_total (T := Nat) (K := Nat) (V := Nat)
    [10, 20] [(1, 5)] [3]
  exact ⟨h.1, h.2.1 (1, 5) (by simp), h.2.2 3 (by simp)⟩

/-- Claim C9: `to_set` is permutation-invariant — reordering the input
sequence does not change the resulting set. -/
theorem to_set_perm_invariant {K : Type} [DecidableEq K]
    (l l2 : List K) (h : l.Perm l2) : to_set l = to_set l2 := by
  rw [to_set_eq_toFinset, to_set_eq_toFinset]
  exact List.toFinset_eq_of_perm l l2 h

/-- Witness for C9 at a concrete permutation. -/
theorem to_set_perm_invariant_witness :
    to_set ([1, 2, 2, 3] : List Nat) = to_set ([3, 2, 1, 2] : List Nat) :=
  to_set_perm_invariant [1, 2, 2, 3] [3, 2, 1, 2] (by decide)

/-- Claim C10: `to_map` is a left fold over `map_insert`, so it is
concatenation-compatible — `to_map (s ++ t)` equals inserting every pair
of `t`, in order, into `to_map s` (entries of `t` overriding entries of
`s` on common keys, by `map_insert`), and `to_map` of the empty sequence
is the empty map. -/
theorem to_map_append_fold {K V : Type} [DecidableEq K]
    (s t : List (K × V)) :
    to_map (s ++ t) =
        t.foldl (fun m kv => map_insert m kv.1 kv.2) (to_map s) ∧
      to_map ([] : List (K × V)) = [] := by
  constructor
  · simp [to_map, List.foldl_append]
  · rfl
